import Mathlib

set_option autoImplicit false

/-!
Shallow embedding of the Hydrogen key-value cache (src/cache.rs) and its
TCP text-protocol layer (src/api.rs).

Strings are modelled as `List Char`; Rust `&str` operations used by the
code (`trim`, `find(' ')`, slicing at the returned index, `split_whitespace`,
`to_uppercase` on ASCII command words) are reproduced on `List Char`.
The zstd compressor (`encode_all` at level 3) and the decompressor plus
UTF-8 decoding (`decode_all` + `String::from_utf8`) are external library
code; they are modelled as abstract functions `zenc : Str → Option B` and
`zdec : B → Option Str` over an abstract payload type `B`, with failure as
`none`.
-/

abbrev Str := List Char

/-- Convert a Lean string literal to the `List Char` model. -/
def str (s : String) : Str := s.toList

/-- Unicode `White_Space` code points, as tested by Rust `char::is_whitespace`. -/
def isWs (c : Char) : Bool :=
  c = ' ' || c = '\t' || c = '\n' || c = '\r' ||
  c.toNat = 0x0B || c.toNat = 0x0C || c.toNat = 0x85 || c.toNat = 0xA0 ||
  c.toNat = 0x1680 || (0x2000 ≤ c.toNat && c.toNat ≤ 0x200A) ||
  c.toNat = 0x2028 || c.toNat = 0x2029 || c.toNat = 0x202F ||
  c.toNat = 0x205F || c.toNat = 0x3000

/-- Rust `char::is_ascii_alphanumeric`. -/
def isAlnum (c : Char) : Bool :=
  ('A' ≤ c && c ≤ 'Z') || ('a' ≤ c && c ≤ 'z') || ('0' ≤ c && c ≤ '9')

/-- A key separator character: hyphen or underscore. -/
def isSep (c : Char) : Bool := c = '-' || c = '_'

/-- Characters allowed in keys: ASCII letters, digits, hyphen, underscore. -/
def isKeyChar (c : Char) : Bool := isAlnum c || isSep c

/-- Drop leading whitespace (left half of Rust `str::trim`). -/
def trimLeft : Str → Str
  | [] => []
  | c :: rest => if isWs c then trimLeft rest else c :: rest

/-- Rust `str::trim`: drop leading and trailing whitespace. -/
def trim (s : Str) : Str := ((trimLeft s).reverse |> trimLeft).reverse

/-- Rust `s.find(' ')` followed by slicing: split at the first space
character, the space itself belonging to neither part.  `none` when the
string has no space. -/
def splitFirstSpace : Str → Option (Str × Str)
  | [] => none
  | c :: rest =>
    if c = ' ' then some ([], rest)
    else
      match splitFirstSpace rest with
      | some (a, b) => some (c :: a, b)
      | none => none

/-- Rust `str::to_uppercase`, restricted to its ASCII behaviour (the parser
only compares the result against the ASCII words SET, GET, DEL, DELETE,
KEYS). -/
def toUpperAscii (s : Str) : Str := s.map Char.toUpper

/-- Helper of `splitWs`: `acc` is the current token, reversed. -/
def splitWsGo : Str → Str → List Str
  | acc, [] => if acc = [] then [] else [acc.reverse]
  | acc, c :: rest =>
    if isWs c then
      if acc = [] then splitWsGo [] rest else acc.reverse :: splitWsGo [] rest
    else splitWsGo (c :: acc) rest

/-- Rust `str::split_whitespace`: whitespace-separated tokens, empty tokens
discarded. -/
def splitWs (s : Str) : List Str := splitWsGo [] s

/-- Join a list of strings with single spaces (Rust `Vec::join(" ")`). -/
def joinSpace (xs : List Str) : Str := List.intercalate [' '] xs

/-- `rest.split_whitespace().collect::<Vec<_>>().join(" ")`: collapse runs
of whitespace between tokens to single spaces. -/
def collapseWs (s : Str) : Str := joinSpace (splitWs s)

/-- Error kinds of `Command::validate_key` (src/api.rs); the formatted
message strings are abstracted to their kinds. -/
inductive KeyErr
  | empty
  | space
  | invalidChar (c : Char)
  | edge (c : Char)
  | between (c : Char)
  | consecutive
deriving DecidableEq

/-- Error kinds of command parsing (`ApiError::InvalidCommand` carriers in
src/api.rs); the formatted message strings are abstracted to their kinds. -/
inductive ParseErr
  | emptyCommand
  | setMissing
  | getMissing
  | delMissing
  | keysExtra
  | unknown (cmd : Str)
  | key (e : KeyErr)
deriving DecidableEq

/-- The parsed command (enum `Command` in src/api.rs). -/
inductive Command
  | set (key value : Str)
  | get (key : Str)
  | delete (key : Str)
  | keys
deriving DecidableEq

namespace Command

/-- First loop of `validate_key`: the first character that is not an ASCII
letter, digit, hyphen or underscore is reported. -/
def charCheck : Str → Except KeyErr Unit
  | [] => .ok ()
  | c :: rest => if isKeyChar c then charCheck rest else .error (.invalidChar c)

/-- Second loop of `validate_key`, past position 0: `prev` is the previous
character.  A separator at the last position is an edge error; a separator
in the middle must sit between two ASCII-alphanumeric characters. -/
def posCheck : Char → Str → Except KeyErr Unit
  | _, [] => .ok ()
  | prev, c :: rest =>
    if isSep c then
      match rest with
      | [] => .error (.edge c)
      | n :: _ =>
        if isAlnum prev && isAlnum n then posCheck c rest
        else .error (.between c)
    else posCheck c rest

/-- Second loop of `validate_key` from position 0: a separator at the first
position is an edge error. -/
def posCheckStart : Str → Except KeyErr Unit
  | [] => .ok ()
  | c :: rest => if isSep c then .error (.edge c) else posCheck c rest

/-- Third loop of `validate_key`: no two consecutive separator characters. -/
def consecCheck : Str → Except KeyErr Unit
  | c1 :: c2 :: rest =>
    if isSep c1 && isSep c2 then .error .consecutive
    else consecCheck (c2 :: rest)
  | _ => .ok ()

/-- `Command::validate_key` (src/api.rs lines 116–170). -/
def validate_key (key : Str) : Except KeyErr Unit :=
  if key = [] then .error .empty
  else if key.contains ' ' then .error .space
  else
    match charCheck key with
    | .error e => .error e
    | .ok _ =>
      match posCheckStart key with
      | .error e => .error e
      | .ok _ => consecCheck key

/-- `Command::parse_set_args` (src/api.rs lines 87–114): split the
arguments of SET at the first space into key and remainder; the trimmed
remainder is the value, verbatim without its first and last characters when
it starts and ends with a double quote and has length at least 2, otherwise
whitespace-collapsed. -/
def parse_set_args (args : Str) : Except ParseErr (Str × Str) :=
  if args = [] then .error .setMissing
  else
    match splitFirstSpace args with
    | none => .error .setMissing
    | some (key, rest0) =>
      let rest := trim rest0
      if rest = [] then .error .setMissing
      else
        let value :=
          if decide (rest.head? = some '"') && decide (rest.getLast? = some '"')
              && decide (2 ≤ rest.length) then
            (rest.drop 1).dropLast
          else collapseWs rest
        .ok (key, value)

/-- The command-word dispatch of `Command::parse` (src/api.rs lines
46–84), on the already-split command word and trimmed rest. -/
def parseDispatch (command rest : Str) : Except ParseErr Command :=
  let up := toUpperAscii command
  if up = str "SET" then
      match parse_set_args rest with
      | .ok (key, value) =>
        match validate_key key with
        | .ok _ => .ok (.set key value)
        | .error e => .error (.key e)
      | .error e => .error e
    else if up = str "GET" then
      if rest = [] then .error .getMissing
      else
        match validate_key rest with
        | .ok _ => .ok (.get rest)
        | .error e => .error (.key e)
    else if up = str "DEL" ∨ up = str "DELETE" then
      if rest = [] then .error .delMissing
      else
        match validate_key rest with
        | .ok _ => .ok (.delete rest)
        | .error e => .error (.key e)
    else if up = str "KEYS" then
      if rest = [] then .ok .keys else .error .keysExtra
    else .error (.unknown command)

/-- `Command::parse` (src/api.rs lines 35–85): trim the input, reject a
blank line, split off the first space-delimited word as the command, trim
the remainder, and dispatch on the upper-cased command word. -/
def parse (input0 : Str) : Except ParseErr Command :=
  let input := trim input0
  if input = [] then .error .emptyCommand
  else
    match splitFirstSpace input with
    | some (c, r) => parseDispatch c (trim r)
    | none => parseDispatch input []

end Command

/-- `CacheError` (src/cache.rs); the formatted payloads of the compression
and decompression messages are abstracted. -/
inductive CacheError
  | compressionError
  | decompressionError
  | keyNotFound (key : Str)
deriving DecidableEq

/-- The `HashMap<String, CacheEntry>` inside `Hydrogen`, modelled as an
association list whose entries have pairwise-distinct keys (every state the
operations below produce from the empty map has this property; removal
erases every occurrence, which agrees with `HashMap::remove` on such
states). -/
abbrev Store (B : Type) := List (Str × B)

/-- `HashMap::insert`: replace the value of an existing key, else add the
pair. -/
def mapInsert {B : Type} : Store B → Str → B → Store B
  | [], k, v => [(k, v)]
  | (k0, v0) :: rest, k, v =>
    if k = k0 then (k, v) :: rest else (k0, v0) :: mapInsert rest k v

/-- `HashMap::get`. -/
def mapFind {B : Type} : Store B → Str → Option B
  | [], _ => none
  | (k0, v0) :: rest, k => if k = k0 then some v0 else mapFind rest k

/-- `HashMap::remove`, as erasure of every entry with the given key (equal
to single-entry removal on duplicate-free states). -/
def mapRemove {B : Type} : Store B → Str → Store B
  | [], _ => []
  | (k0, v0) :: rest, k =>
    if k0 = k then mapRemove rest k else (k0, v0) :: mapRemove rest k

/-- `HashMap::contains_key` (the code uses `remove(key).is_some()`). -/
def mapContains {B : Type} (st : Store B) (k : Str) : Bool :=
  (mapFind st k).isSome

/-- `HashMap::keys` collected into a vector. -/
def mapKeys {B : Type} (st : Store B) : List Str := st.map Prod.fst

namespace Hydrogen

/-- `CacheEntry::new` (src/cache.rs lines 28–35): compress the value; a
compression failure is a `CompressionError`. -/
def entryNew {B : Type} (zenc : Str → Option B) (v : Str) :
    Except CacheError B :=
  match zenc v with
  | some d => .ok d
  | none => .error .compressionError

/-- `CacheEntry::get_value` (src/cache.rs lines 37–43): decompress and
UTF-8-decode the payload; either failure is a `DecompressionError`. -/
def get_value {B : Type} (zdec : B → Option Str) (e : B) :
    Except CacheError Str :=
  match zdec e with
  | some s => .ok s
  | none => .error .decompressionError

/-- `Hydrogen::set` (src/cache.rs lines 58–63): build the entry, then
insert it under the key, replacing any previous entry.  The store is
unchanged when compression fails. -/
def set {B : Type} (zenc : Str → Option B) (st : Store B) (k v : Str) :
    Store B × Except CacheError Unit :=
  match entryNew zenc v with
  | .ok e => (mapInsert st k e, .ok ())
  | .error er => (st, .error er)

/-- `Hydrogen::get` (src/cache.rs lines 65–76): look the key up; absent
keys give `KeyNotFound`, present keys decode the stored entry. -/
def get {B : Type} (zdec : B → Option Str) (st : Store B) (k : Str) :
    Except CacheError Str :=
  match mapFind st k with
  | some e => get_value zdec e
  | none => .error (.keyNotFound k)

/-- `Hydrogen::delete` (src/cache.rs lines 78–82): remove the entry and
return `Ok` of whether it existed; never an error. -/
def delete {B : Type} (st : Store B) (k : Str) :
    Store B × Except CacheError Bool :=
  (mapRemove st k, .ok (mapContains st k))

/-- `Hydrogen::keys` (src/cache.rs lines 84–88): a snapshot of the current
key set. -/
def keys {B : Type} (st : Store B) : Except CacheError (List Str) :=
  .ok (mapKeys st)

end Hydrogen

/-- The `Display` text of a `CacheError` (derived by `thiserror` in
src/cache.rs), with the payloads of the first two abstracted away. -/
def errMsg : CacheError → Str
  | .compressionError => str "Compression failed"
  | .decompressionError => str "Decompression failed"
  | .keyNotFound k => str "Key not found: " ++ k

/-- `TcpApiServer::execute_command` (src/api.rs lines 261–301): run one
parsed command against the store and format the response line. -/
def execute_command {B : Type} (zenc : Str → Option B) (zdec : B → Option Str)
    (st : Store B) : Command → Store B × Str
  | .set k v =>
    match Hydrogen.set zenc st k v with
    | (st1, .ok _) => (st1, str "OK")
    | (st1, .error e) => (st1, str "ERROR: " ++ errMsg e)
  | .get k =>
    match Hydrogen.get zdec st k with
    | .ok v => (st, v)
    | .error (.keyNotFound _) => (st, str "NULL")
    | .error e => (st, str "ERROR: " ++ errMsg e)
  | .delete k =>
    match Hydrogen.delete st k with
    | (st1, .ok true) => (st1, str "1")
    | (st1, .ok false) => (st1, str "0")
    | (st1, .error e) => (st1, str "ERROR: " ++ errMsg e)
  | .keys =>
    match Hydrogen.keys st with
    | .ok ks => (st, if ks = [] then str "(empty)" else joinSpace ks)
    | .error e => (st, str "ERROR: " ++ errMsg e)

/-- One iteration of the read loop of `TcpApiServer::handle_client`
(src/api.rs lines 209–254) after a line has been read successfully: trim
it; a blank line gets no response; otherwise parse it, a parse failure
answering the fixed error line without touching the store, a parsed
command being executed. -/
def handle_line {B : Type} (zenc : Str → Option B) (zdec : B → Option Str)
    (st : Store B) (line : Str) : Store B × Option Str :=
  let request := trim line
  if request = [] then (st, none)
  else
    match Command.parse request with
    | .ok c =>
      let r := execute_command zenc zdec st c
      (r.1, some r.2)
    | .error _ => (st, some (str "ERROR: Invalid endpoint format"))

/-- A UTF-8 continuation byte. -/
def isCont (b : Nat) : Bool := 0x80 ≤ b && b ≤ 0xBF

/-- Admissible second byte of a three-byte sequence (excludes overlong
forms and surrogates, as Rust UTF-8 validation does). -/
def cont3ok (b1 b2 : Nat) : Bool :=
  if b1 = 0xE0 then 0xA0 ≤ b2 && b2 ≤ 0xBF
  else if b1 = 0xED then 0x80 ≤ b2 && b2 ≤ 0x9F
  else isCont b2

/-- Admissible second byte of a four-byte sequence (excludes overlong forms
and code points above U+10FFFF). -/
def cont4ok (b1 b2 : Nat) : Bool :=
  if b1 = 0xF0 then 0x90 ≤ b2 && b2 ≤ 0xBF
  else if b1 = 0xF4 then 0x80 ≤ b2 && b2 ≤ 0x8F
  else isCont b2

/-- Standard UTF-8 decoding of a byte sequence, `none` on any invalid
sequence.  This models the validation performed by `read_line`
(tokio `AsyncBufReadExt`, same rules as `String::from_utf8`). -/
def utf8Decode : List Nat → Option (List Char)
  | [] => some []
  | b1 :: rest =>
    if b1 < 0x80 then
      (utf8Decode rest).map (fun cs => Char.ofNat b1 :: cs)
    else if 0xC2 ≤ b1 && b1 ≤ 0xDF then
      match rest with
      | b2 :: rest2 =>
        if isCont b2 then
          (utf8Decode rest2).map
            (fun cs => Char.ofNat ((b1 - 0xC0) * 0x40 + (b2 - 0x80)) :: cs)
        else none
      | [] => none
    else if 0xE0 ≤ b1 && b1 ≤ 0xEF then
      match rest with
      | b2 :: b3 :: rest3 =>
        if cont3ok b1 b2 && isCont b3 then
          (utf8Decode rest3).map
            (fun cs => Char.ofNat ((b1 - 0xE0) * 0x1000 + (b2 - 0x80) * 0x40
              + (b3 - 0x80)) :: cs)
        else none
      | _ => none
    else if 0xF0 ≤ b1 && b1 ≤ 0xF4 then
      match rest with
      | b2 :: b3 :: b4 :: rest4 =>
        if cont4ok b1 b2 && isCont b3 && isCont b4 then
          (utf8Decode rest4).map
            (fun cs => Char.ofNat ((b1 - 0xF0) * 0x40000
              + (b2 - 0x80) * 0x1000 + (b3 - 0x80) * 0x40 + (b4 - 0x80)) :: cs)
        else none
      | _ => none
    else none

/-- One iteration of the read loop of `TcpApiServer::handle_client`
(src/api.rs lines 209–254) at the byte level, for one received line.
`read_line` fails on bytes that are not valid UTF-8; the `Err` branch of
the loop (lines 249–253) logs and `break`s, so the connection closes with
no response.  The returned `Bool` is whether the loop continues. -/
def handle_raw_line {B : Type} (zenc : Str → Option B) (zdec : B → Option Str)
    (st : Store B) (bytes : List Nat) : Store B × Option Str × Bool :=
  match utf8Decode bytes with
  | some line =>
    match handle_line zenc zdec st line with
    | (st1, resp) => (st1, resp, true)
  | none => (st, none, false)

/-- Store states reachable through the protocol layer: the empty map at
startup (`Hydrogen::new`), then any sequence of received lines processed by
`handle_line`. -/
inductive Reachable {B : Type} (zenc : Str → Option B) (zdec : B → Option Str) :
    Store B → Prop
  | init : Reachable zenc zdec []
  | step (st : Store B) (line : Str) (h : Reachable zenc zdec st) :
      Reachable zenc zdec (handle_line zenc zdec st line).1

/-- Does the parser accept the input? -/
def parseAccepts (input : Str) : Bool :=
  match Command.parse input with
  | .ok _ => true
  | .error _ => false

/-- SET-argument parsing as the spec words it (for comparison with
`Command.parse_set_args`): the key is the token before the first space and
the remainder is the value — a missing key or value is a parse error; if
the remainder, once trimmed, is wrapped in a pair of double quotes
spanning its entire length, the quotes are stripped and the interior is
the value verbatim; otherwise the remainder is whitespace-collapsed. -/
def setArgsSpec (args : Str) : Except ParseErr (Str × Str) :=
  match splitFirstSpace args with
  | none => .error .setMissing
  | some (key, rest0) =>
    if key = [] then .error .setMissing
    else
      let rest := trim rest0
      if rest = [] then .error .setMissing
      else
        let value :=
          if decide (rest.head? = some '"') && decide (rest.getLast? = some '"')
              && decide (2 ≤ rest.length) then
            (rest.drop 1).dropLast
          else collapseWs rest
        .ok (key, value)

/-- Is the last character a separator? -/
def lastSep (l : Str) : Bool :=
  match l.getLast? with
  | some c => isSep c
  | none => false

/-- No two adjacent characters are both separators. -/
def noConsec : Str → Bool
  | c1 :: c2 :: rest => !(isSep c1 && isSep c2) && noConsec (c2 :: rest)
  | _ => true

/-- The key-validity predicate as the spec words it: non-empty, only ASCII
letters, digits, hyphen and underscore, no separator as first or last
character, and no two consecutive separators. -/
def keySpecOk (k : Str) : Bool :=
  !k.isEmpty && k.all isKeyChar &&
  (match k.head? with
   | some c => !isSep c
   | none => false) &&
  !lastSep k && noConsec k

section MapLemmas

variable {B : Type}

theorem mapFind_insert_self (st : Store B) (k : Str) (v : B) :
    mapFind (mapInsert st k v) k = some v := by
  induction st with
  | nil => simp [mapInsert, mapFind]
  | cons hd tl ih =>
    obtain ⟨k0, v0⟩ := hd
    by_cases h : k = k0 <;> simp [mapInsert, mapFind, h, ih]

theorem mapFind_remove_self (st : Store B) (k : Str) :
    mapFind (mapRemove st k) k = none := by
  induction st with
  | nil => simp [mapRemove, mapFind]
  | cons hd tl ih =>
    obtain ⟨k0, v0⟩ := hd
    by_cases h : k0 = k
    · simp [mapRemove, h, ih]
    · have h2 : ¬ (k = k0) := fun hk => h hk.symm
      simp [mapRemove, mapFind, h, h2, ih]

theorem mapFind_insert (st : Store B) (k0 k : Str) (v : B) :
    mapFind (mapInsert st k0 v) k = if k = k0 then some v else mapFind st k := by
  induction st with
  | nil =>
    by_cases h : k = k0 <;> simp [mapInsert, mapFind, h]
  | cons hd tl ih =>
    obtain ⟨k1, v1⟩ := hd
    by_cases h1 : k0 = k1
    · subst h1
      by_cases h : k = k0 <;> simp [mapInsert, mapFind, h]
    · have h2 : mapInsert ((k1, v1) :: tl) k0 v = (k1, v1) :: mapInsert tl k0 v := by
        simp [mapInsert, h1]
      rw [h2]
      by_cases h : k = k1
      · subst h
        have h3 : ¬ (k = k0) := fun he => h1 (he ▸ rfl)
        simp [mapFind, h3]
      · simp [mapFind, h, ih]

theorem mapFind_remove (st : Store B) (k0 k : Str) :
    mapFind (mapRemove st k0) k = if k = k0 then none else mapFind st k := by
  induction st with
  | nil => by_cases h : k = k0 <;> simp [mapRemove, mapFind, h]
  | cons hd tl ih =>
    obtain ⟨k1, v1⟩ := hd
    by_cases h1 : k1 = k0
    · subst h1
      rw [show mapRemove ((k1, v1) :: tl) k1 = mapRemove tl k1 from by
        simp [mapRemove]]
      by_cases h : k = k1
      · rw [ih, if_pos h, if_pos h]
      · rw [ih, if_neg h, if_neg h, mapFind, if_neg h]
    · rw [show mapRemove ((k1, v1) :: tl) k0 = (k1, v1) :: mapRemove tl k0 from by
        simp [mapRemove, h1]]
      by_cases h : k = k1
      · subst h
        have h3 : ¬ (k = k0) := fun he => h1 (he ▸ rfl)
        simp [mapFind, h3]
      · simp [mapFind, h, ih]

theorem mapContains_insert (st : Store B) (k0 k : Str) (v : B)
    (h : mapContains (mapInsert st k0 v) k = true) :
    k = k0 ∨ mapContains st k = true := by
  by_cases hk : k = k0
  · exact Or.inl hk
  · right
    rw [mapContains, mapFind_insert, if_neg hk] at h
    exact h

theorem mapContains_remove (st : Store B) (k0 k : Str)
    (h : mapContains (mapRemove st k0) k = true) :
    mapContains st k = true := by
  by_cases hk : k = k0
  · rw [mapContains, mapFind_remove, if_pos hk] at h
    simp at h
  · rw [mapContains, mapFind_remove, if_neg hk] at h
    exact h

theorem mapContains_mem_keys (st : Store B) (k : Str)
    (h : mapContains st k = true) : k ∈ mapKeys st := by
  induction st with
  | nil => simp [mapContains, mapFind] at h
  | cons hd tl ih =>
    obtain ⟨k1, v1⟩ := hd
    rw [show mapKeys ((k1, v1) :: tl) = k1 :: mapKeys tl from rfl]
    by_cases hkk : k = k1
    · rw [hkk]; exact List.mem_cons_self k1 (mapKeys tl)
    · rw [mapContains, mapFind, if_neg hkk] at h
      exact List.mem_cons_of_mem k1 (ih h)

end MapLemmas

/-- C2: for every key `k` and value `v`, on any store state, `set k v`
succeeds and a following `get k` returns exactly `v`; in particular after
`set k v1` then `set k v2`, `get k` returns `v2`.  The zstd codec is
abstract; the spec's losslessness of compression enters as the hypotheses
`zenc v = some d` and `zdec d = some v`. -/
theorem set_then_get_roundtrip {B : Type} (zenc : Str → Option B)
    (zdec : B → Option Str) (st : Store B) (k v : Str) (d : B)
    (he : zenc v = some d) (hd : zdec d = some v) :
    (Hydrogen.set zenc st k v).2 = .ok () ∧
    Hydrogen.get zdec (Hydrogen.set zenc st k v).1 k = .ok v ∧
    ∀ (v1 : Str) (d1 : B), zenc v1 = some d1 →
      Hydrogen.get zdec
        (Hydrogen.set zenc (Hydrogen.set zenc st k v1).1 k v).1 k = .ok v := by
  have hset : ∀ st1 : Store B,
      Hydrogen.set zenc st1 k v = (mapInsert st1 k d, .ok ()) := by
    intro st1
    simp [Hydrogen.set, Hydrogen.entryNew, he]
  have hget : ∀ st1 : Store B,
      Hydrogen.get zdec (Hydrogen.set zenc st1 k v).1 k = .ok v := by
    intro st1
    rw [hset st1]
    simp [Hydrogen.get, mapFind_insert, Hydrogen.get_value, hd]
  exact ⟨by rw [hset st], hget st, fun v1 d1 _ => hget _⟩

/-- Witness for C2: on the empty store, `set "k" "v w"` then `get "k"`
returns `"v w"`, with the identity codec discharging the losslessness
hypotheses. -/
theorem set_then_get_roundtrip_witness :
    Hydrogen.get Option.some
      (Hydrogen.set Option.some ([] : Store Str) (str "k") (str "v w")).1
      (str "k") = .ok (str "v w") :=
  (set_then_get_roundtrip Option.some Option.some [] (str "k") (str "v w")
    (str "v w") rfl rfl).2.1

/-- C7: `delete k` returns `Ok` of whether the key existed (never an
error), removes the entry, returns `Ok false` on an absent key, returns
`Ok false` again when repeated, and the protocol layer answers `0` for a
delete of an absent key. -/
theorem delete_semantics {B : Type} (st : Store B) (k : Str) :
    (Hydrogen.delete st k).2 = .ok (mapContains st k) ∧
    mapFind (Hydrogen.delete st k).1 k = none ∧
    (mapContains st k = false → (Hydrogen.delete st k).2 = .ok false) ∧
    (Hydrogen.delete (Hydrogen.delete st k).1 k).2 = .ok false ∧
    ∀ (zenc : Str → Option B) (zdec : B → Option Str),
      mapContains st k = false →
      (execute_command zenc zdec st (.delete k)).2 = str "0" := by
  refine ⟨rfl, ?_, ?_, ?_, ?_⟩
  · rw [show (Hydrogen.delete st k).1 = mapRemove st k from rfl,
      mapFind_remove, if_pos rfl]
  · intro h
    simp [Hydrogen.delete, h]
  · simp [Hydrogen.delete, mapContains, mapFind_remove]
  · intro zenc zdec h
    simp [execute_command, Hydrogen.delete, h]

/-- Witness for C7: deleting `"a"` from the empty store returns
`Ok false`, and the protocol answer is `0`. -/
theorem delete_semantics_witness :
    (Hydrogen.delete ([] : Store Str) (str "a")).2 = .ok false ∧
    (execute_command Option.some Option.some ([] : Store Str)
      (.delete (str "a"))).2 = str "0" :=
  ⟨(delete_semantics [] (str "a")).2.2.1 rfl,
   (delete_semantics [] (str "a")).2.2.2.2 Option.some Option.some rfl⟩

/-- C8: on a store not containing `k`, `GET k` answers `NULL` and `DEL k`
answers `0`, and neither response is an `ERROR:` line. -/
theorem absent_key_responses {B : Type} (zenc : Str → Option B)
    (zdec : B → Option Str) (st : Store B) (k : Str)
    (h : mapContains st k = false) :
    (execute_command zenc zdec st (.get k)).2 = str "NULL" ∧
    (execute_command zenc zdec st (.delete k)).2 = str "0" ∧
    (str "ERROR:").isPrefixOf (execute_command zenc zdec st (.get k)).2
      = false ∧
    (str "ERROR:").isPrefixOf (execute_command zenc zdec st (.delete k)).2
      = false := by
  have hn : mapFind st k = none := by
    cases hm : mapFind st k with
    | none => rfl
    | some e => rw [mapContains, hm] at h; simp at h
  have hg : (execute_command zenc zdec st (.get k)).2 = str "NULL" := by
    simp [execute_command, Hydrogen.get, hn]
  have hdel : (execute_command zenc zdec st (.delete k)).2 = str "0" := by
    simp [execute_command, Hydrogen.delete, h]
  refine ⟨hg, hdel, ?_, ?_⟩
  · rw [hg]; decide
  · rw [hdel]; decide

/-- Witness for C8: the empty store does not contain `"a"`, and `GET a`
answers `NULL` there. -/
theorem absent_key_responses_witness :
    mapContains ([] : Store Str) (str "a") = false ∧
    (execute_command Option.some Option.some ([] : Store Str)
      (.get (str "a"))).2 = str "NULL" :=
  ⟨rfl, (absent_key_responses Option.some Option.some [] (str "a") rfl).1⟩

/-- C9: `KEYS` leaves the store unchanged; on the empty store it answers
`(empty)`; on a non-empty store it answers the space-joined key list of
the store, and every key contained in the store is in that list. -/
theorem keys_response {B : Type} (zenc : Str → Option B)
    (zdec : B → Option Str) (st : Store B) :
    (execute_command zenc zdec st .keys).1 = st ∧
    (st = [] → (execute_command zenc zdec st .keys).2 = str "(empty)") ∧
    (st ≠ [] →
      (execute_command zenc zdec st .keys).2 = joinSpace (mapKeys st)) ∧
    ∀ k, mapContains st k = true → k ∈ mapKeys st := by
  refine ⟨rfl, ?_, ?_, fun k => mapContains_mem_keys st k⟩
  · intro h
    subst h
    rfl
  · intro h
    cases st with
    | nil => exact absurd rfl h
    | cons hd tl =>
      simp [execute_command, Hydrogen.keys, mapKeys]

/-- Witness for C9: `KEYS` on the empty store answers `(empty)`, and on a
one-entry store answers its joined key list. -/
theorem keys_response_witness :
    (execute_command Option.some Option.some ([] : Store Str)
      Command.keys).2 = str "(empty)" ∧
    (execute_command Option.some Option.some [(str "a", str "1")]
      Command.keys).2 = joinSpace (mapKeys [(str "a", str "1")]) :=
  ⟨(keys_response Option.some Option.some []).2.1 rfl,
   (keys_response Option.some Option.some [(str "a", str "1")]).2.2.1
     (by simp)⟩

/-- C1: what the code actually does on a received line that is not valid
UTF-8 (here the byte 0xFF followed by the newline): `read_line` fails, the
`Err` branch of the loop in `handle_client` logs and `break`s, so the
connection closes (`false`) with no response (`none`) — it does not answer
`ERROR: Invalid UTF-8` and does not keep processing. -/
theorem invalid_utf8_closes_connection {B : Type} (zenc : Str → Option B)
    (zdec : B → Option Str) (st : Store B) :
    handle_raw_line zenc zdec st [0xFF, 0x0A] = (st, none, false) := by
  have h : utf8Decode [0xFF, 0x0A] = none := by decide
  simp [handle_raw_line, h]

/-- C5 counterexample: `GET 1key` is accepted by the parser (the key rules
place no restriction on a leading digit), contradicting the claim that it
is rejected with a parse error. -/
theorem get_1key_accepted :
    Command.parse (str "GET 1key") = .ok (.get (str "1key")) := rfl

/-- C5 amended: `GET key-`, `GET -key`, `GET key__name` and
`GET "has space"` are rejected with a parse error, while `GET 1key` and
`GET valid-key_1` are accepted. -/
theorem key_validation_examples :
    parseAccepts (str "GET 1key") = true ∧
    parseAccepts (str "GET key-") = false ∧
    parseAccepts (str "GET -key") = false ∧
    parseAccepts (str "GET key__name") = false ∧
    parseAccepts (str "GET \"has space\"") = false ∧
    parseAccepts (str "GET valid-key_1") = true := by decide

/-- C6: on a line that is non-blank after trimming and on which parsing
fails, the handler answers exactly `ERROR: Invalid endpoint format` and
the store is unchanged. -/
theorem parse_failure_fixed_response {B : Type} (zenc : Str → Option B)
    (zdec : B → Option Str) (st : Store B) (line : Str) (e : ParseErr)
    (h0 : trim line ≠ []) (h : Command.parse (trim line) = .error e) :
    handle_line zenc zdec st line
      = (st, some (str "ERROR: Invalid endpoint format")) := by
  simp only [handle_line]
  rw [if_neg h0, h]

/-- Witness for C6: the unknown command `FOO bar` gets the fixed error
response on the empty store. -/
theorem parse_failure_fixed_response_witness :
    trim (str "FOO bar") ≠ [] ∧
    handle_line Option.some Option.some ([] : Store Str) (str "FOO bar")
      = ([], some (str "ERROR: Invalid endpoint format")) :=
  ⟨by decide,
   parse_failure_fixed_response Option.some Option.some [] (str "FOO bar")
     (.unknown (str "FOO")) (by decide) rfl⟩

theorem splitFirstSpace_key_ne_nil (args key rest0 : Str)
    (h : args.head? ≠ some ' ')
    (hs : splitFirstSpace args = some (key, rest0)) : key ≠ [] := by
  cases args with
  | nil => simp [splitFirstSpace] at hs
  | cons c rest =>
    have hc : ¬ (c = ' ') := by
      intro he
      exact h (by rw [he]; rfl)
    simp only [splitFirstSpace, if_neg hc] at hs
    cases hsp : splitFirstSpace rest with
    | none => rw [hsp] at hs; simp at hs
    | some p =>
      obtain ⟨a, b⟩ := p
      rw [hsp] at hs
      simp at hs
      rw [← hs.1]
      simp

/-- C3: `Command::parse_set_args` computes exactly what the spec
describes: key = token before the first space, then the trimmed remainder
is taken verbatim without its surrounding double quotes when present, and
whitespace-collapsed otherwise; a missing key or value is a parse error.
The hypothesis reflects the caller (`Command::parse` trims the argument
string before the call, so it never begins with a space). -/
theorem parse_set_args_matches_spec (args : Str)
    (h : args.head? ≠ some ' ') :
    Command.parse_set_args args = setArgsSpec args := by
  cases args with
  | nil => rfl
  | cons c rest =>
    have hne : (c :: rest : Str) ≠ [] := by simp
    simp only [Command.parse_set_args, setArgsSpec, if_neg hne]
    cases hsp : splitFirstSpace (c :: rest) with
    | none => rfl
    | some p =>
      obtain ⟨key, rest0⟩ := p
      have hk := splitFirstSpace_key_ne_nil (c :: rest) key rest0 h hsp
      simp [hk]

/-- Witness for C3: a quoted SET value with internal double spaces is
taken verbatim. -/
theorem parse_set_args_matches_spec_witness :
    (str "k \"a  b\"").head? ≠ some ' ' ∧
    Command.parse_set_args (str "k \"a  b\"")
      = setArgsSpec (str "k \"a  b\"") :=
  ⟨by decide, parse_set_args_matches_spec (str "k \"a  b\"") (by decide)⟩

theorem sep_not_alnum (c : Char) (h : isSep c = true) : isAlnum c = false := by
  have h2 : c = '-' ∨ c = '_' := by
    simpa [isSep] using h
  rcases h2 with h2 | h2 <;> subst h2 <;> decide

theorem keyChar_alnum_of_not_sep (c : Char) (h : isKeyChar c = true)
    (hs : isSep c = false) : isAlnum c = true := by
  rw [isKeyChar, hs, Bool.or_false] at h
  exact h

theorem lastSep_nil : lastSep [] = false := rfl

theorem lastSep_singleton (c : Char) : lastSep [c] = isSep c := rfl

theorem lastSep_cons_cons (c n : Char) (l : Str) :
    lastSep (c :: n :: l) = lastSep (n :: l) := by
  rw [lastSep, lastSep, List.getLast?_cons_cons]

theorem charCheck_ok_iff (k : Str) :
    Command.charCheck k = .ok () ↔ k.all isKeyChar = true := by
  induction k with
  | nil => simp [Command.charCheck]
  | cons c rest ih =>
    by_cases h : isKeyChar c = true
    · simp [Command.charCheck, h, ih]
    · simp [Command.charCheck, Bool.eq_false_iff.mpr h, h]

theorem consecCheck_ok_iff (k : Str) :
    Command.consecCheck k = .ok () ↔ noConsec k = true := by
  induction k with
  | nil => simp [Command.consecCheck, noConsec]
  | cons c rest ih =>
    cases rest with
    | nil => simp [Command.consecCheck, noConsec]
    | cons c2 rest2 =>
      by_cases h : (isSep c && isSep c2) = true
      · simp [Command.consecCheck, noConsec, h]
      · simp only [Bool.not_eq_true] at h
        simp [Command.consecCheck, noConsec, h, ih]

theorem all_keyChar_no_space (k : Str) (h : k.all isKeyChar = true) :
    k.contains ' ' = false := by
  cases hc : k.contains ' ' with
  | false => rfl
  | true =>
    exfalso
    have hm : (' ' : Char) ∈ k := by
      rw [List.contains] at hc
      exact List.elem_iff.mp hc
    have hk : isKeyChar ' ' = true := List.all_eq_true.mp h _ hm
    exact absurd hk (by decide)

theorem posCheck_ok_iff (l : Str) : ∀ prev : Char, isKeyChar prev = true →
    l.all isKeyChar = true →
    (Command.posCheck prev l = .ok ()
      ↔ (noConsec (prev :: l) = true ∧ lastSep l = false)) := by
  induction l with
  | nil =>
    intro prev _ _
    simp [Command.posCheck, noConsec, lastSep_nil]
  | cons c rest ih =>
    intro prev hp hall
    rw [List.all_cons, Bool.and_eq_true] at hall
    obtain ⟨hc, hrest⟩ := hall
    by_cases hsc : isSep c = true
    · have hcAl : isAlnum c = false := sep_not_alnum c hsc
      cases rest with
      | nil =>
        simp [Command.posCheck, hsc, lastSep_singleton]
      | cons n rs =>
        have hn : isKeyChar n = true := by
          rw [List.all_cons, Bool.and_eq_true] at hrest
          exact hrest.1
        constructor
        · intro h
          simp only [Command.posCheck, hsc, if_true] at h
          by_cases hcond : (isAlnum prev && isAlnum n) = true
          · rw [if_pos hcond] at h
            rw [Bool.and_eq_true] at hcond
            have hsp : isSep prev = false := by
              cases hsprev : isSep prev with
              | false => rfl
              | true => rw [sep_not_alnum prev hsprev] at hcond; simp at hcond
            have hsn : isSep n = false := by
              cases hsn2 : isSep n with
              | false => rfl
              | true => rw [sep_not_alnum n hsn2] at hcond; simp at hcond
            have hrec := (ih c hc hrest).mp h
            refine ⟨?_, ?_⟩
            · rw [show noConsec (prev :: c :: n :: rs)
                  = (!(isSep prev && isSep c) && noConsec (c :: n :: rs))
                  from rfl]
              rw [hsp, hrec.1]
              simp
            · rw [lastSep_cons_cons]
              exact hrec.2
          · rw [if_neg hcond] at h
            simp at h
        · intro ⟨hnc, hls⟩
          simp only [Command.posCheck, hsc, if_true]
          rw [show noConsec (prev :: c :: n :: rs)
              = (!(isSep prev && isSep c) && noConsec (c :: n :: rs)) from rfl,
            Bool.and_eq_true] at hnc
          obtain ⟨hnc1, hnc2⟩ := hnc
          rw [show noConsec (c :: n :: rs)
              = (!(isSep c && isSep n) && noConsec (n :: rs)) from rfl,
            Bool.and_eq_true] at hnc2
          obtain ⟨hnc21, hnc22⟩ := hnc2
          have hsp : isSep prev = false := by
            cases hsprev : isSep prev with
            | false => rfl
            | true => rw [hsprev, hsc] at hnc1; simp at hnc1
          have hsn : isSep n = false := by
            cases hsn2 : isSep n with
            | false => rfl
            | true => rw [hsn2, hsc] at hnc21; simp at hnc21
          have hcond : (isAlnum prev && isAlnum n) = true := by
            rw [keyChar_alnum_of_not_sep prev hp hsp,
              keyChar_alnum_of_not_sep n hn hsn]
            rfl
          rw [if_pos hcond]
          refine (ih c hc hrest).mpr ⟨?_, ?_⟩
          · rw [show noConsec (c :: n :: rs)
                = (!(isSep c && isSep n) && noConsec (n :: rs)) from rfl]
            rw [hsn, hnc22]
            simp
          · rw [lastSep_cons_cons] at hls
            exact hls
    · simp only [Bool.not_eq_true] at hsc
      have hstep : Command.posCheck prev (c :: rest)
          = Command.posCheck c rest := by
        simp [Command.posCheck, hsc]
      rw [hstep, ih c hc hrest]
      have hncstep : noConsec (prev :: c :: rest) = noConsec (c :: rest) := by
        rw [show noConsec (prev :: c :: rest)
            = (!(isSep prev && isSep c) && noConsec (c :: rest)) from rfl]
        rw [hsc]
        simp
      rw [hncstep]
      cases rest with
      | nil => simp [lastSep_singleton, lastSep_nil, hsc]
      | cons n rs => rw [lastSep_cons_cons]

/-- C4: `Command::validate_key` accepts a key exactly when it is
non-empty, uses only ASCII letters, digits, hyphen and underscore, has no
hyphen or underscore as first or last character, and has no two
consecutive hyphen/underscore characters. -/
theorem validate_key_iff_spec (k : Str) :
    Command.validate_key k = .ok () ↔ keySpecOk k = true := by
  cases k with
  | nil => simp [Command.validate_key, keySpecOk]
  | cons c rest =>
    have hne : (c :: rest : Str) ≠ [] := by simp
    constructor
    · intro h
      rw [Command.validate_key, if_neg hne] at h
      cases hcon : (c :: rest).contains ' ' with
      | true => rw [hcon] at h; simp at h
      | false =>
        rw [hcon] at h
        simp only [Bool.false_eq_true, if_false] at h
        cases hcc : Command.charCheck (c :: rest) with
        | error e => rw [hcc] at h; simp at h
        | ok u =>
          cases u
          rw [hcc] at h
          simp only at h
          cases hps : Command.posCheckStart (c :: rest) with
          | error e => rw [hps] at h; simp at h
          | ok u2 =>
            cases u2
            rw [hps] at h
            simp only at h
            have hall : (c :: rest).all isKeyChar = true :=
              (charCheck_ok_iff _).mp hcc
            have hall2 := hall
            rw [List.all_cons, Bool.and_eq_true] at hall2
            obtain ⟨hc, hrest⟩ := hall2
            have hsc : isSep c = false := by
              cases hsc2 : isSep c with
              | false => rfl
              | true =>
                rw [Command.posCheckStart, hsc2] at hps
                simp at hps
            have hpc : Command.posCheck c rest = .ok () := by
              rw [Command.posCheckStart, hsc] at hps
              simpa using hps
            obtain ⟨hnc, hls⟩ := (posCheck_ok_iff rest c hc hrest).mp hpc
            have hlast : lastSep (c :: rest) = false := by
              cases rest with
              | nil => rw [lastSep_singleton]; exact hsc
              | cons n rs => rw [lastSep_cons_cons]; exact hls
            rw [keySpecOk]
            simp [hall, hsc, hnc, hlast]
    · intro h
      rw [keySpecOk] at h
      simp only [Bool.and_eq_true] at h
      obtain ⟨⟨⟨⟨_, hall⟩, hhead⟩, hlastn⟩, hnc⟩ := h
      have hsc : isSep c = false := by
        simp only [List.head?_cons] at hhead
        cases hsc2 : isSep c with
        | false => rfl
        | true => rw [hsc2] at hhead; simp at hhead
      have hlast : lastSep (c :: rest) = false := by
        cases hl : lastSep (c :: rest) with
        | false => rfl
        | true => rw [hl] at hlastn; simp at hlastn
      have hall2 := hall
      rw [List.all_cons, Bool.and_eq_true] at hall2
      obtain ⟨hc, hrest⟩ := hall2
      have hls : lastSep rest = false := by
        cases rest with
        | nil => rfl
        | cons n rs => rw [lastSep_cons_cons] at hlast; exact hlast
      have hcc : Command.charCheck (c :: rest) = .ok () :=
        (charCheck_ok_iff _).mpr hall
      have hpc : Command.posCheck c rest = .ok () :=
        (posCheck_ok_iff rest c hc hrest).mpr ⟨hnc, hls⟩
      have hcons : Command.consecCheck (c :: rest) = .ok () :=
        (consecCheck_ok_iff _).mpr hnc
      have hcontains : (c :: rest).contains ' ' = false :=
        all_keyChar_no_space _ hall
      rw [Command.validate_key, if_neg hne, hcontains]
      simp only [Bool.false_eq_true, if_false]
      rw [hcc, Command.posCheckStart, hsc]
      simp only [Bool.false_eq_true, if_false]
      rw [hpc]
      exact hcons

theorem parseDispatch_set_valid (cmd rest k v : Str)
    (h : Command.parseDispatch cmd rest = .ok (.set k v)) :
    Command.validate_key k = .ok () := by
  simp only [Command.parseDispatch] at h
  by_cases h1 : toUpperAscii cmd = str "SET"
  · rw [if_pos h1] at h
    split at h
    · split at h
      next a hval =>
        simp only [Except.ok.injEq, Command.set.injEq] at h
        rw [← h.1]
        cases a
        exact hval
      next e hval => simp at h
    · simp at h
  · rw [if_neg h1] at h
    by_cases h2 : toUpperAscii cmd = str "GET"
    · rw [if_pos h2] at h
      by_cases h3 : rest = []
      · rw [if_pos h3] at h; simp at h
      · rw [if_neg h3] at h
        cases hv : Command.validate_key rest with
        | error e => rw [hv] at h; simp at h
        | ok u => rw [hv] at h; simp at h
    · rw [if_neg h2] at h
      by_cases h3 : toUpperAscii cmd = str "DEL" ∨ toUpperAscii cmd = str "DELETE"
      · rw [if_pos h3] at h
        by_cases h4 : rest = []
        · rw [if_pos h4] at h; simp at h
        · rw [if_neg h4] at h
          cases hv : Command.validate_key rest with
          | error e => rw [hv] at h; simp at h
          | ok u => rw [hv] at h; simp at h
      · rw [if_neg h3] at h
        by_cases h4 : toUpperAscii cmd = str "KEYS"
        · rw [if_pos h4] at h
          by_cases h5 : rest = []
          · rw [if_pos h5] at h; simp at h
          · rw [if_neg h5] at h; simp at h
        · rw [if_neg h4] at h; simp at h

theorem parse_set_valid (input k v : Str)
    (h : Command.parse input = .ok (.set k v)) :
    Command.validate_key k = .ok () := by
  simp only [Command.parse] at h
  by_cases h1 : trim input = []
  · rw [if_pos h1] at h; simp at h
  · rw [if_neg h1] at h
    cases hsp : splitFirstSpace (trim input) with
    | none =>
      rw [hsp] at h
      exact parseDispatch_set_valid _ _ k v h
    | some p =>
      obtain ⟨c, r⟩ := p
      rw [hsp] at h
      exact parseDispatch_set_valid _ _ k v h

theorem execute_command_contains {B : Type} (zenc : Str → Option B)
    (zdec : B → Option Str) (st : Store B) (cmd : Command) (kk : Str)
    (h : mapContains (execute_command zenc zdec st cmd).1 kk = true) :
    mapContains st kk = true ∨ ∃ v : Str, cmd = .set kk v := by
  cases cmd with
  | set k v =>
    cases hz : zenc v with
    | none =>
      have hst : (execute_command zenc zdec st (.set k v)).1 = st := by
        simp [execute_command, Hydrogen.set, Hydrogen.entryNew, hz]
      rw [hst] at h
      exact Or.inl h
    | some d =>
      have hst : (execute_command zenc zdec st (.set k v)).1
          = mapInsert st k d := by
        simp [execute_command, Hydrogen.set, Hydrogen.entryNew, hz]
      rw [hst] at h
      rcases mapContains_insert st k kk d h with h1 | h1
      · exact Or.inr ⟨v, by rw [h1]⟩
      · exact Or.inl h1
  | get k =>
    have hst : (execute_command zenc zdec st (.get k)).1 = st := by
      cases hg : Hydrogen.get zdec st k with
      | ok v => simp [execute_command, hg]
      | error e => cases e <;> simp [execute_command, hg]
    rw [hst] at h
    exact Or.inl h
  | delete k =>
    have hst : (execute_command zenc zdec st (.delete k)).1
        = mapRemove st k := by
      cases hb : mapContains st k <;>
        simp [execute_command, Hydrogen.delete, hb]
    rw [hst] at h
    exact Or.inl (mapContains_remove st k kk h)
  | keys =>
    have hst : (execute_command zenc zdec st .keys).1 = st := rfl
    rw [hst] at h
    exact Or.inl h

theorem handle_line_contains {B : Type} (zenc : Str → Option B)
    (zdec : B → Option Str) (st : Store B) (line kk : Str)
    (h : mapContains (handle_line zenc zdec st line).1 kk = true) :
    mapContains st kk = true
      ∨ ∃ v : Str, Command.parse (trim line) = .ok (.set kk v) := by
  simp only [handle_line] at h
  by_cases h1 : trim line = []
  · rw [if_pos h1] at h
    exact Or.inl h
  · rw [if_neg h1] at h
    cases hp : Command.parse (trim line) with
    | error e =>
      rw [hp] at h
      exact Or.inl h
    | ok c =>
      rw [hp] at h
      rcases execute_command_contains zenc zdec st c kk h with h2 | ⟨v, hv⟩
      · exact Or.inl h2
      · exact Or.inr ⟨v, by rw [hv]⟩

/-- C10: every key contained in a store state reachable through the
protocol layer (empty store at startup, then any sequence of received
lines) passes `Command::validate_key` — `Command::parse` validates the key
of every SET before any store operation runs. -/
theorem reachable_keys_valid {B : Type} (zenc : Str → Option B)
    (zdec : B → Option Str) (st : Store B) (h : Reachable zenc zdec st) :
    ∀ k, mapContains st k = true → Command.validate_key k = .ok () := by
  induction h with
  | init =>
    intro k hk
    simp [mapContains, mapFind] at hk
  | step st0 line h0 ih =>
    intro k hk
    rcases handle_line_contains zenc zdec st0 line k hk with h1 | ⟨v, hv⟩
    · exact ih k h1
    · exact parse_set_valid _ k v hv

/-- Witness for C10: after the line `SET a 1` on the empty store, the key
`a` is contained in the reached store and is valid. -/
theorem reachable_keys_valid_witness :
    Command.validate_key (str "a") = .ok () :=
  reachable_keys_valid Option.some Option.some _
    (Reachable.step [] (str "SET a 1") Reachable.init) (str "a") (by decide)


